import Mathlib

/-!
Shallow embedding of the BitVM chunker segment compiler
(`src/bitvm/src/chunker/segment.rs`).

The target machine is a stack machine with a main stack and an auxiliary
("alt") stack whose elements are byte strings.  The compiler `Segment.script`
and the witness builder `Segment.witness` are transcribed from the source.
The helpers that live outside the provided source file (`common.rs`'s
`BLAKE3_HASH_LENGTH`, `PROOF_NAMES`, `equalverify`, `not_equal`,
`blake3_var_length`, the `BCAssigner` trait, the `ElementTrait` value
capability and the `Hint` type) are modelled from the specification; each
such definition carries a doc comment saying so.
-/

/-- A stack element: a byte string. `[]` is the value `OP_FALSE` pushes
(the "no-fault" marker); `[1]` is the value `OP_TRUE` pushes (the "fault"
marker). -/
abbrev Item : Type := List Nat

/-- Modelled from the spec: the "no-fault" marker, i.e. the empty byte string
that `OP_FALSE` leaves on the stack. -/
def noFault : Item := []

/-- Modelled from the spec: the "fault" marker, i.e. the byte string `[1]`
that `OP_TRUE` leaves on the stack. -/
def fault : Item := [1]

/-- Modelled from the spec (`common.rs` is outside the provided source): the
fixed item count of a hashed commitment, `BLAKE3_HASH_LENGTH`. -/
def BLAKE3_HASH_LENGTH : Nat := 20

/-- Modelled from the spec: the fixed-output variable-input-length hash
primitive.  Only its fixed output length (`BLAKE3_HASH_LENGTH` items) and
executability matter to the compiler; a simple concrete mixing function
stands in for blake3 itself. -/
def blake3 (xs : List Item) : List Item :=
  (List.range BLAKE3_HASH_LENGTH).map fun i =>
    [(i + xs.foldl (fun a x => x.foldl (fun b y => b * 3 + y + 1) (a + 1)) 0) % 256]

/-- Modelled from the spec (`common.rs` is outside the provided source): the
fixed direct-reveal set of parameter names, `PROOF_NAMES`; membership is by
name only. -/
def PROOF_NAMES : List String := ["proof"]

/-- The instruction set of the embedded stack machine: the opcodes the
compiler emits (`OP_TOALTSTACK`, `OP_FROMALTSTACK`, `{n} OP_PICK`, push of a
constant) together with the bytecode gadgets it splices in
(`blake3_var_length n`, `equalverify n`, `not_equal n`), kept as single
instructions with the semantics the spec gives them. -/
inductive Instr : Type where
  | toAlt : Instr
  | fromAlt : Instr
  | pick : Nat → Instr
  | push : Item → Instr
  | blake3Var : Nat → Instr
  | equalverify : Nat → Instr
  | notEqual : Nat → Instr
deriving DecidableEq, Repr

/-- Bytecode: a flat sequence of instructions.  The source's `Script` type is
composable by concatenation (`push_script` / splicing in `script!` blocks),
which flattening models exactly. -/
abbrev Script : Type := List Instr

/-- Machine state: the main stack and the auxiliary stack, each with the head
of the list as the top of the stack. -/
structure MachState : Type where
  main : List Item
  alt : List Item
deriving DecidableEq, Repr

/-- One instruction.  `none` is an abort of the whole execution.
`equalverify n` pops two `n`-item blocks and aborts unless they are equal;
`not_equal n` pops two `n`-item blocks and pushes the fault marker when they
differ and the no-fault marker when they agree, never aborting (both gadgets
modelled from the spec, `common.rs` being outside the provided source). -/
def step : Instr → MachState → Option MachState
  | .toAlt, ⟨x :: m, a⟩ => some ⟨m, x :: a⟩
  | .toAlt, ⟨[], _⟩ => none
  | .fromAlt, ⟨m, x :: a⟩ => some ⟨x :: m, a⟩
  | .fromAlt, ⟨_, []⟩ => none
  | .pick n, ⟨m, a⟩ =>
      match m[n]? with
      | some x => some ⟨x :: m, a⟩
      | none => none
  | .push x, ⟨m, a⟩ => some ⟨x :: m, a⟩
  | .blake3Var n, ⟨m, a⟩ =>
      if n ≤ m.length then some ⟨blake3 (m.take n) ++ m.drop n, a⟩ else none
  | .equalverify n, ⟨m, a⟩ =>
      if 2 * n ≤ m.length ∧ m.take n = (m.drop n).take n then
        some ⟨m.drop (2 * n), a⟩
      else none
  | .notEqual n, ⟨m, a⟩ =>
      if 2 * n ≤ m.length then
        some ⟨(if m.take n = (m.drop n).take n then noFault else fault) :: m.drop (2 * n), a⟩
      else none

/-- Run a script from a state; `none` is an aborted execution. -/
def run (l : Script) (s : MachState) : Option MachState :=
  l.foldlM (fun st i => step i st) s

/-- Modelled from the spec: a value-capability handle (`ElementTrait` object):
a name, a witness size in stack items, and fallible extraction of the raw
serialized value. -/
structure Element : Type where
  id : String
  witness_size : Nat
  to_witness : Option (List Item)
deriving DecidableEq, Repr

/-- Modelled from the spec: the commitment capability (`BCAssigner`): per
value handle, a verification bytecode fragment and a commitment-opening
witness, both name-keyed and idempotent. -/
structure BCAssigner : Type where
  locking_script : Element → Script
  get_witness : Element → List Item

/-- Modelled from the spec: a hint is an auxiliary byte-producing directive
whose `push()` emits pure stack pushes of its data. -/
structure Hint : Type where
  data : List Item
deriving DecidableEq, Repr

/-- The bytecode `hint.push()` emits. -/
def Hint.pushScript (h : Hint) : Script := h.data.map Instr.push

/-- The segment type from the source.  The source struct's `script` field (the
inner program) is named `inner_program` here because Lean cannot give a
structure field and the compiler method the same name. -/
structure Segment : Type where
  name : String
  inner_program : Script
  parameter_list : List Element
  result_list : List Element
  hints : List Hint
  final_segment : Bool

/-- `hinted_to_witness` from the source: run the hints' pushes on the
reference interpreter from an empty stack and harvest the final stack
contents bottom-to-top. -/
def Segment.hinted_to_witness (seg : Segment) : List Item :=
  match run (seg.hints.flatMap Hint.pushScript) ⟨[], []⟩ with
  | some st => st.main.reverse
  | none => []

def Segment.new_with_name (name : String) (s : Script) : Segment :=
  ⟨name, s, [], [], [], false⟩

def Segment.new (s : Script) : Segment :=
  Segment.new_with_name "" s

def Segment.add_parameter (seg : Segment) (x : Element) : Segment :=
  { seg with parameter_list := seg.parameter_list ++ [x] }

def Segment.add_result (seg : Segment) (x : Element) : Segment :=
  { seg with result_list := seg.result_list ++ [x] }

def Segment.add_hint (seg : Segment) (hints : List Hint) : Segment :=
  { seg with hints := hints }

def Segment.mark_final (seg : Segment) : Segment :=
  { seg with final_segment := true }

def Segment.is_final (seg : Segment) : Bool :=
  seg.final_segment

/-- `for _ in 0..n { OP_TOALTSTACK }`. -/
def toAltN (n : Nat) : Script := List.replicate n Instr.toAlt

/-- `for _ in 0..n { OP_FROMALTSTACK }`. -/
def fromAltN (n : Nat) : Script := List.replicate n Instr.fromAlt

/-- `for _ in 0..n { {i} OP_PICK }`. -/
def pickN (i n : Nat) : Script := List.replicate n (Instr.pick i)

/-- Phase 1 of `Segment::script`: for each result in reverse order, the
commitment verification fragment followed by `BLAKE3_HASH_LENGTH` moves to
the auxiliary stack. -/
def phase1 (A : BCAssigner) (results : List Element) : Script :=
  results.reverse.flatMap fun r => A.locking_script r ++ toAltN BLAKE3_HASH_LENGTH

/-- The phase-2 fragment for one parameter: its commitment verification
fragment, then a move of either the full raw witness length (direct-reveal
names) or the fixed hash length to the auxiliary stack. -/
def phase2one (A : BCAssigner) (p : Element) : Script :=
  A.locking_script p ++
    (if PROOF_NAMES.contains p.id then toAltN p.witness_size
     else toAltN BLAKE3_HASH_LENGTH)

/-- Phase 2 of `Segment::script`: parameters in forward order. -/
def phase2 (A : BCAssigner) (params : List Element) : Script :=
  params.flatMap fun p => phase2one A p

/-- The phase-3 fragment for one parameter at stack offset `base`: copy the
raw witness block to the top, then either compare it raw against the value
pulled back from the auxiliary stack (direct-reveal) or hash it and compare
the hash against the committed hash pulled back from the auxiliary stack. -/
def phase3one (base : Nat) (p : Element) : Script :=
  if PROOF_NAMES.contains p.id then
    pickN (base + p.witness_size - 1) p.witness_size ++
      fromAltN p.witness_size ++ [Instr.equalverify p.witness_size]
  else
    pickN (base + p.witness_size - 1) p.witness_size ++
      [Instr.blake3Var p.witness_size] ++
      fromAltN BLAKE3_HASH_LENGTH ++ [Instr.equalverify BLAKE3_HASH_LENGTH]

/-- The phase-3 loop: parameters visited in the reverse of insertion order,
`base` accumulating the witness sizes already handled. -/
def phase3go : Nat → List Element → Script
  | _, [] => []
  | base, p :: rest => phase3one base p ++ phase3go (base + p.witness_size) rest

/-- Phase 3 of `Segment::script`. -/
def phase3 (params : List Element) : Script :=
  phase3go 0 params.reverse

/-- Phase 4 of `Segment::script`: the inner program verbatim, then a hash of
each result's raw output in reverse order with each hash moved to the
auxiliary stack, then `2 * BLAKE3_HASH_LENGTH * |results|` moves back to the
main stack. -/
def phase4 (seg : Segment) : Script :=
  seg.inner_program ++
    (seg.result_list.reverse.flatMap fun r =>
      [Instr.blake3Var r.witness_size] ++ toAltN BLAKE3_HASH_LENGTH) ++
    fromAltN (BLAKE3_HASH_LENGTH * seg.result_list.length * 2)

/-- `Segment::script`: the five compilation phases concatenated, the final
aggregate mismatch gadget emitted only for non-terminal segments. -/
def Segment.script (seg : Segment) (A : BCAssigner) : Script :=
  phase1 A seg.result_list ++ phase2 A seg.parameter_list ++
    phase3 seg.parameter_list ++ phase4 seg ++
    (if seg.final_segment then []
     else [Instr.notEqual (BLAKE3_HASH_LENGTH * seg.result_list.length)])

/-- The raw serialized values of the parameters in forward order; `none` as
soon as one parameter's extraction fails (the source `panic!`s there). -/
def paramsRaw : List Element → Option (List Item)
  | [] => some []
  | p :: ps =>
    match p.to_witness, paramsRaw ps with
    | some w, some rest => some (w ++ rest)
    | _, _ => none

/-- `Segment::witness`: hint-evaluation output, then each parameter's raw
value in forward order, then each parameter's commitment-opening witness in
reverse order, then each result's commitment-opening witness in forward
order.  The source's `panic!` on a failed extraction is `none`. -/
def Segment.witness (seg : Segment) (A : BCAssigner) : Option (List Item) :=
  match paramsRaw seg.parameter_list with
  | none => none
  | some raws =>
    some (seg.hinted_to_witness ++ raws ++
      (seg.parameter_list.reverse.flatMap fun p => A.get_witness p) ++
      (seg.result_list.flatMap fun r => A.get_witness r))

/-- The machine state in which a script/witness pair is executed: the witness
items pushed in order onto an empty main stack (so the last item is on top),
empty auxiliary stack. -/
def initState (w : List Item) : MachState := ⟨w.reverse, []⟩


/-! ### Basic execution lemmas -/

theorem run_nil (s : MachState) : run [] s = some s := rfl

theorem run_cons (i : Instr) (l : Script) (s : MachState) :
    run (i :: l) s = (step i s).bind (run l) := by
  simp only [run, List.foldlM_cons]
  rfl

theorem run_single (i : Instr) (s : MachState) : run [i] s = step i s := by
  rw [run_cons]
  cases step i s <;> rfl

theorem run_append (l l' : Script) (s : MachState) :
    run (l ++ l') s = (run l s).bind (run l') := by
  simp only [run, List.foldlM_append]
  rfl

theorem run_append_some (l l' : Script) (s t : MachState)
    (h : run l s = some t) : run (l ++ l') s = run l' t := by
  rw [run_append, h]
  rfl

/-- Running `n` `OP_TOALTSTACK`s moves the top `n`-item block to the alt
stack, reversed. -/
theorem run_toAltN (B : List Item) (m a : List Item) :
    run (toAltN B.length) ⟨B ++ m, a⟩ = some ⟨m, B.reverse ++ a⟩ := by
  induction B generalizing a with
  | nil => rfl
  | cons x xs ih =>
    have hsplit : toAltN (x :: xs).length = [Instr.toAlt] ++ toAltN xs.length := by
      simp [toAltN, List.replicate_succ]
    rw [hsplit, run_append_some _ _ _ ⟨xs ++ m, x :: a⟩ (by rw [run_single]; rfl)]
    rw [ih (x :: a)]
    simp

/-- Running `n` `OP_FROMALTSTACK`s moves the top `n`-item block of the alt
stack back onto the main stack, reversed. -/
theorem run_fromAltN (B : List Item) (m a : List Item) :
    run (fromAltN B.length) ⟨m, B ++ a⟩ = some ⟨B.reverse ++ m, a⟩ := by
  induction B generalizing m with
  | nil => rfl
  | cons x xs ih =>
    have hsplit : fromAltN (x :: xs).length = [Instr.fromAlt] ++ fromAltN xs.length := by
      simp [fromAltN, List.replicate_succ]
    rw [hsplit, run_append_some _ _ _ ⟨x :: m, xs ++ a⟩ (by rw [run_single]; rfl)]
    rw [ih (x :: m)]
    simp

/-- Dropping two stacked equal-length blocks reaches the rest of the stack. -/
theorem drop2_blocks (C B m : List Item) (h : C.length = B.length) :
    (C ++ B ++ m).drop (2 * B.length) = m := by
  have hlen : (C ++ B).length = 2 * B.length := by simp [h]; omega
  calc (C ++ B ++ m).drop (2 * B.length)
      = ((C ++ B) ++ m).drop ((C ++ B).length) := by rw [hlen]
    _ = m := List.drop_left _ _

/-- The pick loop of phase 3, partially done: with `j` picks left, the first
`j` items of the block `B` sitting at depth `pre.length` get copied on top of
the partial copy `B.drop j`. -/
theorem run_pickN_drop (j : Nat) (pre B m a : List Item) (hj : j ≤ B.length) :
    run (pickN (pre.length + B.length - 1) j) ⟨B.drop j ++ (pre ++ (B ++ m)), a⟩ =
      some ⟨B ++ (pre ++ (B ++ m)), a⟩ := by
  induction j with
  | zero => simp [pickN, run_nil]
  | succ k ih =>
    have hk : k < B.length := by omega
    have hsplit : pickN (pre.length + B.length - 1) (k + 1) =
        [Instr.pick (pre.length + B.length - 1)] ++ pickN (pre.length + B.length - 1) k := by
      simp [pickN, List.replicate_succ]
    have hdlen : (B.drop (k + 1)).length = B.length - (k + 1) := by simp
    have hge1 : (B.drop (k + 1)).length ≤ pre.length + B.length - 1 := by
      rw [hdlen]; omega
    have hidx1 : pre.length + B.length - 1 - (B.drop (k + 1)).length = pre.length + k := by
      rw [hdlen]; omega
    have hge2 : pre.length ≤ pre.length + k := Nat.le_add_right _ _
    have hget : (B.drop (k + 1) ++ (pre ++ (B ++ m)))[pre.length + B.length - 1]? =
        some (B.get ⟨k, hk⟩) := by
      rw [List.getElem?_append_right hge1, hidx1, List.getElem?_append_right hge2,
        show pre.length + k - pre.length = k from by omega,
        List.getElem?_append_left hk]
      exact List.getElem?_eq_getElem hk
    have hcons : B.get ⟨k, hk⟩ :: B.drop (k + 1) = B.drop k := (List.drop_eq_getElem_cons hk).symm
    have h1 : run [Instr.pick (pre.length + B.length - 1)]
        ⟨B.drop (k + 1) ++ (pre ++ (B ++ m)), a⟩ =
        some ⟨B.drop k ++ (pre ++ (B ++ m)), a⟩ := by
      rw [run_single]
      simp only [step, hget, Option.map_some]
      rw [← List.cons_append, hcons]
    rw [hsplit, run_append_some _ _ _ _ h1]
    exact ih (by omega)

/-- The full pick loop copies the block `B` sitting at depth `pre.length` to
the top of the stack, in its original orientation. -/
theorem run_pickN_copy (pre B m a : List Item) :
    run (pickN (pre.length + B.length - 1) B.length) ⟨pre ++ (B ++ m), a⟩ =
      some ⟨B ++ (pre ++ (B ++ m)), a⟩ := by
  have h := run_pickN_drop B.length pre B m a (Nat.le_refl _)
  rw [List.drop_length] at h
  simpa using h

/-- `equalverify n` on two equal stacked `n`-blocks succeeds and consumes
both. -/
theorem run_equalverify_eq (B m a : List Item) :
    run [Instr.equalverify B.length] ⟨B ++ (B ++ m), a⟩ = some ⟨m, a⟩ := by
  rw [run_single]
  have ht : (B ++ (B ++ m)).take B.length = B := List.take_left B (B ++ m)
  have hd : ((B ++ (B ++ m)).drop B.length).take B.length = B := by
    rw [List.drop_left B (B ++ m)]
    exact List.take_left B m
  have hlen2 : 2 * B.length ≤ (B ++ (B ++ m)).length := by simp; omega
  have h2 : (B ++ (B ++ m)).drop (2 * B.length) = m := by
    rw [← List.append_assoc]
    exact drop2_blocks B B m rfl
  simp only [step]
  rw [if_pos ⟨hlen2, by rw [ht, hd]⟩, h2]

/-- `equalverify n` on two different stacked `n`-blocks aborts. -/
theorem run_equalverify_ne (C B m a : List Item) (hlen : C.length = B.length)
    (hne : C ≠ B) :
    run [Instr.equalverify B.length] ⟨C ++ (B ++ m), a⟩ = none := by
  rw [run_single]
  have ht : (C ++ (B ++ m)).take B.length = C := by
    rw [← hlen]; exact List.take_left C (B ++ m)
  have hd : ((C ++ (B ++ m)).drop B.length).take B.length = B := by
    rw [← hlen, List.drop_left C (B ++ m), hlen]
    exact List.take_left B m
  have hcond : ¬(2 * B.length ≤ (C ++ (B ++ m)).length ∧
      (C ++ (B ++ m)).take B.length = ((C ++ (B ++ m)).drop B.length).take B.length) := by
    rw [ht, hd]
    exact fun h => hne h.2
  simp only [step]
  rw [if_neg hcond]

/-- `not_equal n` never aborts: it consumes two stacked `n`-blocks and pushes
the fault marker exactly when they differ, the no-fault marker when they
agree. -/
theorem run_notEqual (C B m a : List Item) (hlen : C.length = B.length) :
    run [Instr.notEqual B.length] ⟨C ++ (B ++ m), a⟩ =
      some ⟨(if C = B then noFault else fault) :: m, a⟩ := by
  rw [run_single]
  have ht : (C ++ (B ++ m)).take B.length = C := by
    rw [← hlen]; exact List.take_left C (B ++ m)
  have hd : ((C ++ (B ++ m)).drop B.length).take B.length = B := by
    rw [← hlen, List.drop_left C (B ++ m), hlen]
    exact List.take_left B m
  have hlen2 : 2 * B.length ≤ (C ++ (B ++ m)).length := by simp [hlen]; omega
  have h2 : (C ++ (B ++ m)).drop (2 * B.length) = m := by
    rw [← List.append_assoc]
    exact drop2_blocks C B m hlen
  simp only [step]
  rw [if_pos hlen2, ht, hd, h2]

/-- `blake3_var_length n` consumes the top `n`-item block and pushes its
hash. -/
theorem run_blake3Var (B m a : List Item) :
    run [Instr.blake3Var B.length] ⟨B ++ m, a⟩ = some ⟨blake3 B ++ m, a⟩ := by
  rw [run_single]
  have ht : (B ++ m).take B.length = B := List.take_left B m
  have hd : (B ++ m).drop B.length = m := List.drop_left B m
  have hlen : B.length ≤ (B ++ m).length := by simp
  simp only [step]
  rw [if_pos hlen, ht, hd]

/-- The hash has the fixed output length. -/
theorem blake3_length (xs : List Item) : (blake3 xs).length = BLAKE3_HASH_LENGTH := by
  simp [blake3]

/-! ### Phase-level lemmas for honest executions -/

/-- The verification fragment of `e` consumes `e`'s commitment-opening
witness (which sits pushed on the main stack, hence reversed) and leaves the
committed block `out`, not touching anything beneath it nor the alt stack. -/
def LockRuns (A : BCAssigner) (e : Element) (out : List Item) : Prop :=
  ∀ m a, run (A.locking_script e) ⟨(A.get_witness e).reverse ++ m, a⟩ = some ⟨out ++ m, a⟩

/-- The length of a concatenation of equal-length blocks. -/
theorem length_flatMap_const (l : List Element) (f : Element → List Item) (n : Nat)
    (h : ∀ x ∈ l, (f x).length = n) : (l.flatMap f).length = n * l.length := by
  induction l with
  | nil => simp
  | cons x xs ih =>
    simp only [List.flatMap_cons, List.length_append, List.length_cons]
    rw [h x (by simp), ih (fun y hy => h y (by simp [hy]))]
    ring

/-- Unlock-and-stash loop: for each element of `l` in order, run its
verification fragment on its opening witness and move the committed
`BLAKE3_HASH_LENGTH`-item block to the alt stack. -/
theorem run_lockToAlt_list (A : BCAssigner) (l : List Element) (C : Element → List Item)
    (hlock : ∀ r ∈ l, LockRuns A r (C r))
    (hlen : ∀ r ∈ l, (C r).length = BLAKE3_HASH_LENGTH)
    (m a : List Item) :
    run (l.flatMap fun r => A.locking_script r ++ toAltN BLAKE3_HASH_LENGTH)
        ⟨(l.flatMap fun r => (A.get_witness r).reverse) ++ m, a⟩ =
      some ⟨m, (l.reverse.flatMap fun r => (C r).reverse) ++ a⟩ := by
  induction l generalizing m a with
  | nil => simp [run_nil]
  | cons r rest ih =>
    simp only [List.flatMap_cons, List.append_assoc]
    have h1 : run (A.locking_script r)
        ⟨(A.get_witness r).reverse ++ ((rest.flatMap fun x => (A.get_witness x).reverse) ++ m), a⟩ =
        some ⟨C r ++ ((rest.flatMap fun x => (A.get_witness x).reverse) ++ m), a⟩ :=
      hlock r (by simp) _ a
    rw [run_append_some _ _ _ _ h1]
    have h2 : run (toAltN BLAKE3_HASH_LENGTH)
        ⟨C r ++ ((rest.flatMap fun x => (A.get_witness x).reverse) ++ m), a⟩ =
        some ⟨(rest.flatMap fun x => (A.get_witness x).reverse) ++ m, (C r).reverse ++ a⟩ := by
      rw [← hlen r (by simp)]
      exact run_toAltN (C r) _ a
    rw [run_append_some _ _ _ _ h2]
    rw [ih (fun y hy => hlock y (by simp [hy])) (fun y hy => hlen y (by simp [hy])) m
      ((C r).reverse ++ a)]
    simp

/-- Phase 1 run: results unlocked in reverse order, committed result hashes
stashed on the alt stack. -/
theorem run_phase1 (A : BCAssigner) (rs : List Element) (C : Element → List Item)
    (hlock : ∀ r ∈ rs, LockRuns A r (C r))
    (hlen : ∀ r ∈ rs, (C r).length = BLAKE3_HASH_LENGTH)
    (m a : List Item) :
    run (phase1 A rs) ⟨(rs.reverse.flatMap fun r => (A.get_witness r).reverse) ++ m, a⟩ =
      some ⟨m, (rs.flatMap fun r => (C r).reverse) ++ a⟩ := by
  have h := run_lockToAlt_list A rs.reverse C
    (fun r hr => hlock r (by simpa using hr)) (fun r hr => hlen r (by simpa using hr)) m a
  simpa [phase1] using h

/-- Phase 2 run: parameters unlocked in forward order; the committed block
(`witness_size` items for direct-reveal names, `BLAKE3_HASH_LENGTH` items
otherwise) stashed on the alt stack. -/
theorem run_phase2 (A : BCAssigner) (ps : List Element) (D : Element → List Item)
    (hlock : ∀ p ∈ ps, LockRuns A p (D p))
    (hlen : ∀ p ∈ ps, (D p).length =
      (if PROOF_NAMES.contains p.id then p.witness_size else BLAKE3_HASH_LENGTH))
    (m a : List Item) :
    run (phase2 A ps) ⟨(ps.flatMap fun p => (A.get_witness p).reverse) ++ m, a⟩ =
      some ⟨m, (ps.reverse.flatMap fun p => (D p).reverse) ++ a⟩ := by
  induction ps generalizing m a with
  | nil => simp [phase2, run_nil]
  | cons p rest ih =>
    simp only [phase2, List.flatMap_cons, List.append_assoc]
    have h1 : run (A.locking_script p)
        ⟨(A.get_witness p).reverse ++ ((rest.flatMap fun x => (A.get_witness x).reverse) ++ m), a⟩ =
        some ⟨D p ++ ((rest.flatMap fun x => (A.get_witness x).reverse) ++ m), a⟩ :=
      hlock p (by simp) _ a
    have h2 : run (if PROOF_NAMES.contains p.id then toAltN p.witness_size
          else toAltN BLAKE3_HASH_LENGTH)
        ⟨D p ++ ((rest.flatMap fun x => (A.get_witness x).reverse) ++ m), a⟩ =
        some ⟨(rest.flatMap fun x => (A.get_witness x).reverse) ++ m, (D p).reverse ++ a⟩ := by
      have hcount : (if PROOF_NAMES.contains p.id then toAltN p.witness_size
          else toAltN BLAKE3_HASH_LENGTH) = toAltN (D p).length := by
        rw [hlen p (by simp)]
        by_cases hc : PROOF_NAMES.contains p.id = true
        · simp only [hc, if_true]
        · simp only [hc, if_false, Bool.false_eq_true]
      rw [hcount]
      exact run_toAltN (D p) _ a
    simp only [phase2one, List.append_assoc]
    rw [run_append_some _ _ _ _ h1, run_append_some _ _ _ _ h2]
    have h3 := ih (fun y hy => hlock y (by simp [hy])) (fun y hy => hlen y (by simp [hy])) m
      ((D p).reverse ++ a)
    simp only [phase2, phase2one] at h3
    rw [h3]
    simp

/-- One phase-3 fragment on an honest stack: the raw block `B p` of parameter
`p` sits at depth `pre.length`; the matching committed block (the raw block
itself for direct-reveal names, its hash otherwise) is on top of the alt
stack; the check passes and consumes exactly that alt block, leaving the main
stack unchanged. -/
theorem run_phase3one (p : Element) (B : List Item) (pre m a : List Item)
    (hB : B.length = p.witness_size) :
    run (phase3one pre.length p)
        ⟨pre ++ (B ++ m),
          ((if PROOF_NAMES.contains p.id then B else blake3 B)).reverse ++ a⟩ =
      some ⟨pre ++ (B ++ m), a⟩ := by
  by_cases hc : PROOF_NAMES.contains p.id = true
  · have hfrag : phase3one pre.length p =
        pickN (pre.length + p.witness_size - 1) p.witness_size ++
          (fromAltN p.witness_size ++ [Instr.equalverify p.witness_size]) := by
      simp only [phase3one, hc, if_true, List.append_assoc]
    rw [hfrag]
    have hpick : run (pickN (pre.length + p.witness_size - 1) p.witness_size)
        ⟨pre ++ (B ++ m), B.reverse ++ a⟩ =
        some ⟨B ++ (pre ++ (B ++ m)), B.reverse ++ a⟩ := by
      rw [← hB]
      exact run_pickN_copy pre B m (B.reverse ++ a)
    simp only [hc, if_true]
    rw [run_append_some _ _ _ _ hpick]
    have hfrom : run (fromAltN p.witness_size)
        ⟨B ++ (pre ++ (B ++ m)), B.reverse ++ a⟩ =
        some ⟨B ++ (B ++ (pre ++ (B ++ m))), a⟩ := by
      have h := run_fromAltN B.reverse (B ++ (pre ++ (B ++ m))) a
      simp only [List.length_reverse, List.reverse_reverse] at h
      rw [← hB]
      exact h
    rw [run_append_some _ _ _ _ hfrom]
    have heq : run [Instr.equalverify p.witness_size]
        ⟨B ++ (B ++ (pre ++ (B ++ m))), a⟩ = some ⟨pre ++ (B ++ m), a⟩ := by
      rw [← hB]
      exact run_equalverify_eq B (pre ++ (B ++ m)) a
    exact heq
  · have hfrag : phase3one pre.length p =
        pickN (pre.length + p.witness_size - 1) p.witness_size ++
          ([Instr.blake3Var p.witness_size] ++
            (fromAltN BLAKE3_HASH_LENGTH ++ [Instr.equalverify BLAKE3_HASH_LENGTH])) := by
      simp only [phase3one, hc, if_false, Bool.false_eq_true, List.append_assoc]
    rw [hfrag]
    have hpick : run (pickN (pre.length + p.witness_size - 1) p.witness_size)
        ⟨pre ++ (B ++ m), (blake3 B).reverse ++ a⟩ =
        some ⟨B ++ (pre ++ (B ++ m)), (blake3 B).reverse ++ a⟩ := by
      rw [← hB]
      exact run_pickN_copy pre B m ((blake3 B).reverse ++ a)
    simp only [hc, if_false, Bool.false_eq_true]
    rw [run_append_some _ _ _ _ hpick]
    have hhash : run [Instr.blake3Var p.witness_size]
        ⟨B ++ (pre ++ (B ++ m)), (blake3 B).reverse ++ a⟩ =
        some ⟨blake3 B ++ (pre ++ (B ++ m)), (blake3 B).reverse ++ a⟩ := by
      rw [← hB]
      exact run_blake3Var B (pre ++ (B ++ m)) ((blake3 B).reverse ++ a)
    rw [run_append_some _ _ _ _ hhash]
    have hfrom : run (fromAltN BLAKE3_HASH_LENGTH)
        ⟨blake3 B ++ (pre ++ (B ++ m)), (blake3 B).reverse ++ a⟩ =
        some ⟨blake3 B ++ (blake3 B ++ (pre ++ (B ++ m))), a⟩ := by
      have h := run_fromAltN (blake3 B).reverse (blake3 B ++ (pre ++ (B ++ m))) a
      simp only [List.length_reverse, List.reverse_reverse, blake3_length] at h
      exact h
    rw [run_append_some _ _ _ _ hfrom]
    have heq : run [Instr.equalverify BLAKE3_HASH_LENGTH]
        ⟨blake3 B ++ (blake3 B ++ (pre ++ (B ++ m))), a⟩ =
        some ⟨pre ++ (B ++ m), a⟩ := by
      rw [← blake3_length B]
      exact run_equalverify_eq (blake3 B) (pre ++ (B ++ m)) a
    exact heq

/-- The phase-3 loop on an honest stack: the raw parameter blocks (in
processing order) sit under the already-checked blocks `pre`; each check
passes, consuming the matching alt blocks and leaving the main stack
unchanged. -/
theorem run_phase3go (l : List Element) (B : Element → List Item)
    (hB : ∀ p ∈ l, (B p).length = p.witness_size)
    (pre m a : List Item) :
    run (phase3go pre.length l)
        ⟨pre ++ (l.flatMap B ++ m),
          (l.flatMap fun p => ((if PROOF_NAMES.contains p.id then B p
            else blake3 (B p))).reverse) ++ a⟩ =
      some ⟨pre ++ (l.flatMap B ++ m), a⟩ := by
  induction l generalizing pre a with
  | nil => simp [phase3go, run_nil]
  | cons p rest ih =>
    simp only [phase3go, List.flatMap_cons, List.append_assoc]
    have h1 : run (phase3one pre.length p)
        ⟨pre ++ (B p ++ (rest.flatMap B ++ m)),
          ((if PROOF_NAMES.contains p.id then B p else blake3 (B p))).reverse ++
            ((rest.flatMap fun q => ((if PROOF_NAMES.contains q.id then B q
              else blake3 (B q))).reverse) ++ a)⟩ =
        some ⟨pre ++ (B p ++ (rest.flatMap B ++ m)),
          (rest.flatMap fun q => ((if PROOF_NAMES.contains q.id then B q
            else blake3 (B q))).reverse) ++ a⟩ :=
      run_phase3one p (B p) pre (rest.flatMap B ++ m) _ (hB p (by simp))
    rw [run_append_some _ _ _ _ h1]
    have hlen2 : pre.length + p.witness_size = (pre ++ B p).length := by
      simp [hB p (by simp)]
    rw [hlen2]
    have h2 := ih (fun q hq => hB q (by simp [hq])) (pre ++ B p) a
    simp only [List.append_assoc] at h2
    exact h2

/-- The phase-4 hash loop: each result block (in processing order) is hashed
and the hash stashed on the alt stack. -/
theorem run_hashResults (l : List Element) (Rb : Element → List Item)
    (hlen : ∀ r ∈ l, (Rb r).length = r.witness_size)
    (m a : List Item) :
    run (l.flatMap fun r => [Instr.blake3Var r.witness_size] ++ toAltN BLAKE3_HASH_LENGTH)
        ⟨l.flatMap Rb ++ m, a⟩ =
      some ⟨m, (l.reverse.flatMap fun r => (blake3 (Rb r)).reverse) ++ a⟩ := by
  induction l generalizing a with
  | nil => simp [run_nil]
  | cons r rest ih =>
    simp only [List.flatMap_cons, List.append_assoc]
    have h1 : run [Instr.blake3Var r.witness_size]
        ⟨Rb r ++ (rest.flatMap Rb ++ m), a⟩ =
        some ⟨blake3 (Rb r) ++ (rest.flatMap Rb ++ m), a⟩ := by
      rw [← hlen r (by simp)]
      exact run_blake3Var (Rb r) _ a
    rw [run_append_some _ _ _ _ h1]
    have h2 : run (toAltN BLAKE3_HASH_LENGTH)
        ⟨blake3 (Rb r) ++ (rest.flatMap Rb ++ m), a⟩ =
        some ⟨rest.flatMap Rb ++ m, (blake3 (Rb r)).reverse ++ a⟩ := by
      rw [← blake3_length (Rb r)]
      exact run_toAltN (blake3 (Rb r)) _ a
    rw [run_append_some _ _ _ _ h2]
    rw [ih (fun y hy => hlen y (by simp [hy])) ((blake3 (Rb r)).reverse ++ a)]
    simp

/-- Running phases 1 to 4 of a compiled segment on its own witness: all
commitment checks pass and the execution reaches the state in which the
committed result hashes (top) and the freshly computed result hashes sit on
the main stack and the alt stack is empty again.

The hypotheses say: every parameter's raw value extracts with the declared
size; every verification fragment consumes its opening witness and leaves
the committed block (the raw value or its hash for parameters, the committed
hash `C r` for results); and the inner program turns the raw parameter
blocks plus hint items into the result blocks `Rb`. -/
theorem run_phases14 (seg : Segment) (A : BCAssigner)
    (W Rb C : Element → List Item)
    (hW : ∀ p ∈ seg.parameter_list, p.to_witness = some (W p))
    (hWlen : ∀ p ∈ seg.parameter_list, (W p).length = p.witness_size)
    (hlockP : ∀ p ∈ seg.parameter_list,
      LockRuns A p (if PROOF_NAMES.contains p.id then (W p).reverse
        else blake3 ((W p).reverse)))
    (hlockR : ∀ r ∈ seg.result_list, LockRuns A r (C r))
    (hClen : ∀ r ∈ seg.result_list, (C r).length = BLAKE3_HASH_LENGTH)
    (hRlen : ∀ r ∈ seg.result_list, (Rb r).length = r.witness_size)
    (hinner : ∀ a, run seg.inner_program
        ⟨(seg.parameter_list.reverse.flatMap fun p => (W p).reverse) ++
          seg.hinted_to_witness.reverse, a⟩ =
        some ⟨seg.result_list.reverse.flatMap Rb, a⟩)
    (w : List Item) (hw : seg.witness A = some w) :
    run (phase1 A seg.result_list ++ (phase2 A seg.parameter_list ++
        (phase3 seg.parameter_list ++ phase4 seg))) (initState w) =
      some ⟨(seg.result_list.reverse.flatMap fun r => C r) ++
        (seg.result_list.reverse.flatMap fun r => blake3 (Rb r)), []⟩ := by
  have hraw : paramsRaw seg.parameter_list = some (seg.parameter_list.flatMap W) := by
    have : ∀ ps : List Element, (∀ p ∈ ps, p.to_witness = some (W p)) →
        paramsRaw ps = some (ps.flatMap W) := by
      intro ps
      induction ps with
      | nil => intro _; rfl
      | cons p rest ih =>
        intro hmem
        simp only [paramsRaw, hmem p (by simp), ih (fun y hy => hmem y (by simp [hy])),
          List.flatMap_cons]
    exact this seg.parameter_list hW
  have hwval : w = seg.hinted_to_witness ++ (seg.parameter_list.flatMap W) ++
      (seg.parameter_list.reverse.flatMap fun p => A.get_witness p) ++
      (seg.result_list.flatMap fun r => A.get_witness r) := by
    have : seg.witness A = some (seg.hinted_to_witness ++ (seg.parameter_list.flatMap W) ++
        (seg.parameter_list.reverse.flatMap fun p => A.get_witness p) ++
        (seg.result_list.flatMap fun r => A.get_witness r)) := by
      simp only [Segment.witness, hraw]
    rw [this] at hw
    exact (Option.some_inj.mp hw).symm
  have hmain : (initState w).main =
      (seg.result_list.reverse.flatMap fun r => (A.get_witness r).reverse) ++
      ((seg.parameter_list.flatMap fun p => (A.get_witness p).reverse) ++
      ((seg.parameter_list.reverse.flatMap fun p => (W p).reverse) ++
      seg.hinted_to_witness.reverse)) := by
    simp only [initState, hwval, List.reverse_append, List.reverse_flatMap,
      List.reverse_reverse, List.append_assoc]
    rfl
  have hstart : initState w = ⟨(seg.result_list.reverse.flatMap fun r => (A.get_witness r).reverse) ++
      ((seg.parameter_list.flatMap fun p => (A.get_witness p).reverse) ++
      ((seg.parameter_list.reverse.flatMap fun p => (W p).reverse) ++
      seg.hinted_to_witness.reverse)), []⟩ := by
    rw [← hmain]
    rfl
  rw [hstart]
  have h1 := run_phase1 A seg.result_list C hlockR hClen
    ((seg.parameter_list.flatMap fun p => (A.get_witness p).reverse) ++
      ((seg.parameter_list.reverse.flatMap fun p => (W p).reverse) ++
      seg.hinted_to_witness.reverse)) []
  rw [run_append_some _ _ _ _ h1]
  have h2 := run_phase2 A seg.parameter_list
    (fun p => if PROOF_NAMES.contains p.id then (W p).reverse else blake3 ((W p).reverse))
    hlockP
    (by
      intro p hp
      by_cases hc : PROOF_NAMES.contains p.id = true
      · simp only [hc, if_true, List.length_reverse]
        exact hWlen p hp
      · simp only [hc, if_false, Bool.false_eq_true, blake3_length])
    ((seg.parameter_list.reverse.flatMap fun p => (W p).reverse) ++
      seg.hinted_to_witness.reverse)
    ((seg.result_list.flatMap fun r => (C r).reverse) ++ [])
  rw [run_append_some _ _ _ _ h2]
  have h3pre := run_phase3go seg.parameter_list.reverse (fun p => (W p).reverse)
    (by
      intro p hp
      simp only [List.length_reverse]
      exact hWlen p (by simpa using hp))
    [] seg.hinted_to_witness.reverse
    ((seg.result_list.flatMap fun r => (C r).reverse) ++ [])
  have h3 : run (phase3 seg.parameter_list)
      ⟨(seg.parameter_list.reverse.flatMap fun p => (W p).reverse) ++
        seg.hinted_to_witness.reverse,
        (seg.parameter_list.reverse.flatMap fun p =>
          ((if PROOF_NAMES.contains p.id then (W p).reverse
            else blake3 ((W p).reverse))).reverse) ++
          ((seg.result_list.flatMap fun r => (C r).reverse) ++ [])⟩ =
      some ⟨(seg.parameter_list.reverse.flatMap fun p => (W p).reverse) ++
        seg.hinted_to_witness.reverse,
        (seg.result_list.flatMap fun r => (C r).reverse) ++ []⟩ := by
    have := h3pre
    simp only [List.length_nil, List.nil_append] at this
    simpa [phase3] using this
  rw [run_append_some _ _ _ _ h3]
  simp only [phase4, List.append_assoc]
  have h4 := hinner ((seg.result_list.flatMap fun r => (C r).reverse) ++ [])
  rw [run_append_some _ _ _ _ h4]
  have h5 := run_hashResults seg.result_list.reverse Rb
    (fun r hr => hRlen r (by simpa using hr)) []
    ((seg.result_list.flatMap fun r => (C r).reverse) ++ [])
  rw [run_append_some _ _ _ _ (by simpa using h5)]
  have hcount : BLAKE3_HASH_LENGTH * seg.result_list.length * 2 =
      ((seg.result_list.flatMap fun r => (blake3 (Rb r)).reverse) ++
        (seg.result_list.flatMap fun r => (C r).reverse)).length := by
    simp only [List.length_append]
    rw [length_flatMap_const _ _ BLAKE3_HASH_LENGTH (by intro x hx; simp [blake3_length]),
      length_flatMap_const _ _ BLAKE3_HASH_LENGTH (by intro x hx; simp [hClen x hx])]
    ring
  have h6 : run (fromAltN (BLAKE3_HASH_LENGTH * seg.result_list.length * 2))
      ⟨[], (seg.result_list.flatMap fun r => (blake3 (Rb r)).reverse) ++
        (seg.result_list.flatMap fun r => (C r).reverse)⟩ =
      some ⟨((seg.result_list.flatMap fun r => (blake3 (Rb r)).reverse) ++
        (seg.result_list.flatMap fun r => (C r).reverse)).reverse, []⟩ := by
    rw [hcount]
    have h := run_fromAltN ((seg.result_list.flatMap fun r => (blake3 (Rb r)).reverse) ++
      (seg.result_list.flatMap fun r => (C r).reverse)) [] []
    simpa using h
  rw [h6]
  simp only [List.reverse_append, List.reverse_flatMap, Function.comp_def,
    List.reverse_reverse]

/-! ### Concrete instances -/

/-- A concrete commitment capability in the spirit of the tests'
`DummyAssigner`: empty verification fragments, the opening witness being the
committed block itself (the hash of the value's raw block), pushed in
reverse so that it sits on the main stack in block orientation. -/
def dummyAssigner : BCAssigner :=
  ⟨fun _ => [], fun e => (blake3 ((e.to_witness.getD []).reverse)).reverse⟩

/-- A small populated value handle named `a0` (not in the direct-reveal
set), with a four-item raw serialization. -/
def elemA0 : Element := ⟨"a0", 4, some [[1], [2], [3], [4]]⟩

/-- The segment of `test_segment_by_simple_case`: empty inner program, `a0`
as single parameter and as single (identical) result. -/
def segSimple : Segment := ((Segment.new []).add_parameter elemA0).add_result elemA0

/-- The honest witness of `segSimple` against `dummyAssigner`. -/
def wSimple : List Item := (segSimple.witness dummyAssigner).getD []

/-- `wSimple` with one byte of the committed result's commitment-opening
witness (its last item, index 43 of the 44-item witness; the result opening
witness occupies indices 24-43) flipped. -/
def wFlipped : List Item := wSimple.set 43 ((wSimple.getD 43 []).map fun b => (b + 1) % 256)

/-! ### Witness-builder lemmas -/

/-- When every parameter extracts, `paramsRaw` is the forward-order
concatenation of the raw values. -/
theorem paramsRaw_eq (ps : List Element) (W : Element → List Item)
    (hW : ∀ p ∈ ps, p.to_witness = some (W p)) :
    paramsRaw ps = some (ps.flatMap W) := by
  induction ps with
  | nil => rfl
  | cons p rest ih =>
    simp only [paramsRaw, hW p (by simp), ih (fun y hy => hW y (by simp [hy])),
      List.flatMap_cons]

/-- `paramsRaw` fails exactly when some parameter's extraction fails. -/
theorem paramsRaw_none_iff (ps : List Element) :
    paramsRaw ps = none ↔ ∃ p ∈ ps, p.to_witness = none := by
  induction ps with
  | nil => simp [paramsRaw]
  | cons p rest ih =>
    constructor
    · intro h
      rcases hp : p.to_witness with _ | w
      · exact ⟨p, List.mem_cons_self p rest, hp⟩
      · rcases hr : paramsRaw rest with _ | l
        · obtain ⟨q, hq1, hq2⟩ := ih.mp hr
          exact ⟨q, List.mem_cons_of_mem p hq1, hq2⟩
        · exfalso
          rw [show paramsRaw (p :: rest) = some (w ++ l) from by
            simp only [paramsRaw, hp, hr]] at h
          exact Option.noConfusion h
    · intro h
      obtain ⟨q, hq1, hq2⟩ := h
      rcases List.mem_cons.mp hq1 with heq | hmem
      · subst heq
        simp only [paramsRaw, hq2]
      · have hr : paramsRaw rest = none := ih.mpr ⟨q, hmem, hq2⟩
        simp only [paramsRaw, hr]
        cases hp : p.to_witness <;> rfl

/-- Pushes push: running a sequence of pushes stacks the items in order. -/
theorem run_pushes (xs : List Item) (m a : List Item) :
    run (xs.map Instr.push) ⟨m, a⟩ = some ⟨xs.reverse ++ m, a⟩ := by
  induction xs generalizing m with
  | nil => simp [run_nil]
  | cons x rest ih =>
    have hsplit : (x :: rest).map Instr.push = [Instr.push x] ++ rest.map Instr.push := by
      simp
    rw [hsplit, run_append_some _ _ _ ⟨x :: m, a⟩ (by rw [run_single]; rfl), ih (x :: m)]
    simp

/-- The hint evaluation output is the hints' data, in push order
(bottom-to-top of the final interpreter stack). -/
theorem hinted_to_witness_eq (seg : Segment) :
    seg.hinted_to_witness = seg.hints.flatMap Hint.data := by
  have hmap : seg.hints.flatMap Hint.pushScript = (seg.hints.flatMap Hint.data).map Instr.push := by
    induction seg.hints with
    | nil => rfl
    | cons h rest ih => simp [Hint.pushScript, ih]
  simp only [Segment.hinted_to_witness, hmap, run_pushes, List.append_nil,
    List.reverse_reverse]

/-! ### Claim theorems -/

/-- C8: the builder operations: `new` yields an anonymous segment with the
given inner program, empty parameter/result/hint lists and an unset terminal
flag; `add_parameter`/`add_result` append (a clone of) the handle at the end
of the respective list, leaving every other field alone; `add_hint` replaces
the hint list wholesale; `mark_final` sets the terminal flag.  All five are
total functions — no operation can fail.  (In this pure embedding the
source's `Rc::new(Box::new(x.clone()))` is the identity: the appended handle
is an independent value, not a view of the caller's copy.) -/
theorem c8_builder_ops (s : Script) (seg : Segment) (x : Element) (hs : List Hint) :
    (Segment.new s).name = "" ∧
    (Segment.new s).inner_program = s ∧
    (Segment.new s).parameter_list = [] ∧
    (Segment.new s).result_list = [] ∧
    (Segment.new s).hints = [] ∧
    (Segment.new s).final_segment = false ∧
    (seg.add_parameter x).parameter_list = seg.parameter_list ++ [x] ∧
    (seg.add_parameter x).result_list = seg.result_list ∧
    (seg.add_parameter x).hints = seg.hints ∧
    (seg.add_parameter x).final_segment = seg.final_segment ∧
    (seg.add_parameter x).inner_program = seg.inner_program ∧
    (seg.add_result x).result_list = seg.result_list ++ [x] ∧
    (seg.add_result x).parameter_list = seg.parameter_list ∧
    (seg.add_result x).hints = seg.hints ∧
    (seg.add_result x).final_segment = seg.final_segment ∧
    (seg.add_result x).inner_program = seg.inner_program ∧
    (seg.add_hint hs).hints = hs ∧
    (seg.add_hint hs).parameter_list = seg.parameter_list ∧
    (seg.add_hint hs).result_list = seg.result_list ∧
    (seg.add_hint hs).final_segment = seg.final_segment ∧
    (seg.mark_final).final_segment = true ∧
    (seg.mark_final).parameter_list = seg.parameter_list ∧
    (seg.mark_final).result_list = seg.result_list ∧
    (seg.mark_final).hints = seg.hints :=
  ⟨rfl, rfl, rfl, rfl, rfl, rfl, rfl, rfl, rfl, rfl, rfl, rfl, rfl, rfl, rfl, rfl,
    rfl, rfl, rfl, rfl, rfl, rfl, rfl, rfl⟩

/-- C7: the witness builder fails (the source `panic!`s, `none` here) exactly
when some parameter's raw-witness extraction returns no value; parameter
extraction failure is the only construction-error condition — hint
evaluation and the commitment capability's opening witnesses cannot fail. -/
theorem c7_witness_error (seg : Segment) (A : BCAssigner) :
    seg.witness A = none ↔ ∃ p ∈ seg.parameter_list, p.to_witness = none := by
  rw [← paramsRaw_none_iff]
  constructor
  · intro h
    rcases hr : paramsRaw seg.parameter_list with _ | raws
    · rfl
    · exfalso
      rw [show seg.witness A = some (seg.hinted_to_witness ++ raws ++
          (seg.parameter_list.reverse.flatMap fun p => A.get_witness p) ++
          (seg.result_list.flatMap fun r => A.get_witness r)) from by
        simp only [Segment.witness, hr]] at h
      exact Option.noConfusion h
  · intro h
    simp only [Segment.witness, h]

/-- C3: the witness is, in this exact order: the hint-evaluation output (the
final interpreter stack of the hint pushes, bottom-to-top), each parameter's
raw serialized value in forward order, each parameter's commitment-opening
witness in reverse order, and each result's commitment-opening witness in
forward order. -/
theorem c3_witness_layout (seg : Segment) (A : BCAssigner) (W : Element → List Item)
    (hW : ∀ p ∈ seg.parameter_list, p.to_witness = some (W p)) :
    seg.witness A = some ((seg.hints.flatMap Hint.data) ++
      seg.parameter_list.flatMap W ++
      (seg.parameter_list.reverse.flatMap fun p => A.get_witness p) ++
      (seg.result_list.flatMap fun r => A.get_witness r)) := by
  simp only [Segment.witness, paramsRaw_eq seg.parameter_list W hW,
    hinted_to_witness_eq]

/-- Witness for C3 at a concrete input. -/
theorem c3_witness_layout_witness :
    segSimple.witness dummyAssigner = some (([] : List Item) ++
      segSimple.parameter_list.flatMap (fun e => e.to_witness.getD []) ++
      (segSimple.parameter_list.reverse.flatMap fun p => dummyAssigner.get_witness p) ++
      (segSimple.result_list.flatMap fun r => dummyAssigner.get_witness r)) :=
  c3_witness_layout segSimple dummyAssigner (fun e => e.to_witness.getD []) (by decide)

/-- Total witness size of a list of parameters. -/
def sizeSum (l : List Element) : Nat := (l.map Element.witness_size).sum

theorem sizeSum_reverse (l : List Element) : sizeSum l.reverse = sizeSum l := by
  simp [sizeSum, List.map_reverse, List.sum_reverse]

/-- The phase-3 loop splits around any decomposition of its worklist, the
second part starting at the accumulated offset of the first. -/
theorem phase3go_append (b : Nat) (l1 l2 : List Element) :
    phase3go b (l1 ++ l2) = phase3go b l1 ++ phase3go (b + sizeSum l1) l2 := by
  induction l1 generalizing b with
  | nil => simp [phase3go, sizeSum]
  | cons p rest ih =>
    simp only [List.cons_append, phase3go, List.append_eq]
    rw [ih]
    simp [sizeSum, List.append_assoc, Nat.add_assoc]

/-- C4: in the compiled bytecode, a parameter `p` (here: the one between
`pre` and `post` in the parameter list) gets, in phase 2 (forward order), its
verification fragment followed by a move of its full raw witness length to
the auxiliary stack when its name is direct-reveal and of the fixed hash
length otherwise; and in phase 3 (reverse order, so at offset
`sizeSum post`) the raw bytes are copied and — direct-reveal — compared raw
against the value pulled back from the auxiliary stack with no hashing
instruction anywhere in the fragment, aborting on mismatch, or — otherwise —
hashed with blake3 and compared against the committed hash pulled back from
the auxiliary stack, aborting on mismatch. -/
theorem c4_parameter_paths (A : BCAssigner) (seg : Segment) (pre post : List Element)
    (p : Element) (hps : seg.parameter_list = pre ++ p :: post) :
    (phase2 A seg.parameter_list = phase2 A pre ++ (phase2one A p ++ phase2 A post) ∧
      phase2one A p = A.locking_script p ++
        toAltN (if PROOF_NAMES.contains p.id then p.witness_size else BLAKE3_HASH_LENGTH)) ∧
    phase3 seg.parameter_list = phase3go 0 post.reverse ++
      (phase3one (sizeSum post) p ++ phase3go (sizeSum post + p.witness_size) pre.reverse) ∧
    (PROOF_NAMES.contains p.id = true →
      phase3one (sizeSum post) p =
        pickN (sizeSum post + p.witness_size - 1) p.witness_size ++
          fromAltN p.witness_size ++ [Instr.equalverify p.witness_size] ∧
      (∀ n, Instr.blake3Var n ∉ phase3one (sizeSum post) p) ∧
      (∀ B D m a, B.length = p.witness_size → D.length = p.witness_size → D ≠ B →
        ∀ q : List Item, q.length = sizeSum post →
        run (phase3one (sizeSum post) p) ⟨q ++ (B ++ m), D.reverse ++ a⟩ = none)) ∧
    (PROOF_NAMES.contains p.id = false →
      phase3one (sizeSum post) p =
        pickN (sizeSum post + p.witness_size - 1) p.witness_size ++
          [Instr.blake3Var p.witness_size] ++ fromAltN BLAKE3_HASH_LENGTH ++
          [Instr.equalverify BLAKE3_HASH_LENGTH] ∧
      (∀ B D m a, B.length = p.witness_size → D.length = BLAKE3_HASH_LENGTH →
        D ≠ blake3 B →
        ∀ q : List Item, q.length = sizeSum post →
        run (phase3one (sizeSum post) p) ⟨q ++ (B ++ m), D.reverse ++ a⟩ = none)) := by
  refine ⟨⟨?_, ?_⟩, ?_, ?_, ?_⟩
  · rw [hps]
    simp [phase2, List.append_assoc]
  · by_cases hc : PROOF_NAMES.contains p.id = true
    · simp only [phase2one, if_pos hc]
    · have hc2 : ¬(PROOF_NAMES.contains p.id = true) := hc
      simp only [phase2one, if_neg hc2]
  · rw [hps]
    have hrev : (pre ++ p :: post).reverse = post.reverse ++ (p :: pre.reverse) := by
      simp
    rw [phase3, hrev, phase3go_append, sizeSum_reverse, Nat.zero_add, phase3go]
  · intro hc
    refine ⟨by simp only [phase3one, if_pos hc], ?_, ?_⟩
    · intro n
      simp only [phase3one, if_pos hc]
      simp [pickN, fromAltN, List.mem_append, List.mem_replicate]
    intro B D m a hB hD hne q hq
    have hfrag : phase3one (sizeSum post) p =
        pickN (sizeSum post + p.witness_size - 1) p.witness_size ++
          (fromAltN p.witness_size ++ [Instr.equalverify p.witness_size]) := by
      simp only [phase3one, if_pos hc, List.append_assoc]
    rw [hfrag]
    have hpick : run (pickN (sizeSum post + p.witness_size - 1) p.witness_size)
        ⟨q ++ (B ++ m), D.reverse ++ a⟩ =
        some ⟨B ++ (q ++ (B ++ m)), D.reverse ++ a⟩ := by
      rw [← hB, ← hq]
      exact run_pickN_copy q B m (D.reverse ++ a)
    rw [run_append_some _ _ _ _ hpick]
    have hfrom : run (fromAltN p.witness_size)
        ⟨B ++ (q ++ (B ++ m)), D.reverse ++ a⟩ =
        some ⟨D ++ (B ++ (q ++ (B ++ m))), a⟩ := by
      have h := run_fromAltN D.reverse (B ++ (q ++ (B ++ m))) a
      simp only [List.length_reverse, List.reverse_reverse] at h
      rw [← hD]
      exact h
    rw [run_append_some _ _ _ _ hfrom]
    have heq : run [Instr.equalverify p.witness_size]
        ⟨D ++ (B ++ (q ++ (B ++ m))), a⟩ = none := by
      rw [← hB]
      exact run_equalverify_ne D B (q ++ (B ++ m)) a (hD.trans hB.symm) hne
    exact heq
  · intro hc
    have hc2 : ¬(PROOF_NAMES.contains p.id = true) := by
      rw [hc]
      exact Bool.false_ne_true
    refine ⟨by simp only [phase3one, if_neg hc2, List.append_assoc], ?_⟩
    intro B D m a hB hD hne q hq
    have hfrag : phase3one (sizeSum post) p =
        pickN (sizeSum post + p.witness_size - 1) p.witness_size ++
          ([Instr.blake3Var p.witness_size] ++
            (fromAltN BLAKE3_HASH_LENGTH ++ [Instr.equalverify BLAKE3_HASH_LENGTH])) := by
      simp only [phase3one, if_neg hc2, List.append_assoc]
    rw [hfrag]
    have hpick : run (pickN (sizeSum post + p.witness_size - 1) p.witness_size)
        ⟨q ++ (B ++ m), D.reverse ++ a⟩ =
        some ⟨B ++ (q ++ (B ++ m)), D.reverse ++ a⟩ := by
      rw [← hB, ← hq]
      exact run_pickN_copy q B m (D.reverse ++ a)
    rw [run_append_some _ _ _ _ hpick]
    have hhash : run [Instr.blake3Var p.witness_size]
        ⟨B ++ (q ++ (B ++ m)), D.reverse ++ a⟩ =
        some ⟨blake3 B ++ (q ++ (B ++ m)), D.reverse ++ a⟩ := by
      rw [← hB]
      exact run_blake3Var B (q ++ (B ++ m)) (D.reverse ++ a)
    rw [run_append_some _ _ _ _ hhash]
    have hfrom : run (fromAltN BLAKE3_HASH_LENGTH)
        ⟨blake3 B ++ (q ++ (B ++ m)), D.reverse ++ a⟩ =
        some ⟨D ++ (blake3 B ++ (q ++ (B ++ m))), a⟩ := by
      have h := run_fromAltN D.reverse (blake3 B ++ (q ++ (B ++ m))) a
      simp only [List.length_reverse, List.reverse_reverse] at h
      rw [← hD]
      exact h
    rw [run_append_some _ _ _ _ hfrom]
    have heq : run [Instr.equalverify BLAKE3_HASH_LENGTH]
        ⟨D ++ (blake3 B ++ (q ++ (B ++ m))), a⟩ = none := by
      rw [← blake3_length B]
      exact run_equalverify_ne D (blake3 B) (q ++ (B ++ m)) a
        (hD.trans (blake3_length B).symm) hne
    exact heq

/-- Witness for C4 at a concrete input (the non-direct-reveal path of
`segSimple`'s parameter `a0`). -/
theorem c4_parameter_paths_witness :
    phase3 segSimple.parameter_list = phase3go 0 [] ++
      (phase3one (sizeSum []) elemA0 ++
        phase3go (sizeSum [] + elemA0.witness_size) []) ∧
    phase3one (sizeSum []) elemA0 =
      pickN (sizeSum [] + elemA0.witness_size - 1) elemA0.witness_size ++
        [Instr.blake3Var elemA0.witness_size] ++ fromAltN BLAKE3_HASH_LENGTH ++
        [Instr.equalverify BLAKE3_HASH_LENGTH] :=
  ⟨(c4_parameter_paths dummyAssigner segSimple [] [] elemA0 rfl).2.1,
    ((c4_parameter_paths dummyAssigner segSimple [] [] elemA0 rfl).2.2.2 (by decide)).1⟩

/-- C5: the compiled bytecode begins with, for each result in reverse order,
that result's commitment-verification fragment followed by
`BLAKE3_HASH_LENGTH` moves to the auxiliary stack; after the inner program
it hashes each result's raw output in reverse order, moves each hash to the
auxiliary stack, and moves exactly `2 * BLAKE3_HASH_LENGTH * |results|`
items back to the main stack — which (second conjunct) transfers both the
freshly computed and the originally committed result hashes from the
auxiliary stack onto the main stack. -/
theorem c5_result_side (seg : Segment) (A : BCAssigner) :
    (seg.script A = (seg.result_list.reverse.flatMap fun r =>
        A.locking_script r ++ toAltN BLAKE3_HASH_LENGTH) ++
      (phase2 A seg.parameter_list ++ (phase3 seg.parameter_list ++
        (seg.inner_program ++
          ((seg.result_list.reverse.flatMap fun r =>
            [Instr.blake3Var r.witness_size] ++ toAltN BLAKE3_HASH_LENGTH) ++
          (fromAltN (BLAKE3_HASH_LENGTH * seg.result_list.length * 2) ++
            (if seg.final_segment then []
             else [Instr.notEqual (BLAKE3_HASH_LENGTH * seg.result_list.length)]))))))) ∧
    (∀ F G m a, F.length = BLAKE3_HASH_LENGTH * seg.result_list.length →
      G.length = BLAKE3_HASH_LENGTH * seg.result_list.length →
      run (fromAltN (BLAKE3_HASH_LENGTH * seg.result_list.length * 2))
          ⟨m, F ++ (G ++ a)⟩ = some ⟨(F ++ G).reverse ++ m, a⟩) := by
  constructor
  · simp [Segment.script, phase1, phase4, List.append_assoc]
  · intro F G m a h1 h2
    have hc : BLAKE3_HASH_LENGTH * seg.result_list.length * 2 = (F ++ G).length := by
      simp only [List.length_append, h1, h2]
      ring
    rw [hc, show F ++ (G ++ a) = (F ++ G) ++ a from (List.append_assoc F G a).symm]
    exact run_fromAltN (F ++ G) m a

/-- Witness for C5 at a concrete input. -/
theorem c5_result_side_witness :
    run (fromAltN (BLAKE3_HASH_LENGTH * segSimple.result_list.length * 2))
        ⟨[], List.replicate 20 ([5] : Item) ++ (List.replicate 20 ([6] : Item) ++ [])⟩ =
      some ⟨(List.replicate 20 ([5] : Item) ++ List.replicate 20 ([6] : Item)).reverse ++ [], []⟩ :=
  (c5_result_side segSimple dummyAssigner).2 (List.replicate 20 [5])
    (List.replicate 20 [6]) [] [] (by decide) (by decide)

/-- C6: the compiled bytecode ends with the aggregate mismatch gadget
`not_equal (BLAKE3_HASH_LENGTH * |results|)` exactly when the terminal flag
is false; the gadget (third conjunct) consumes the two hash sets and leaves
the fault marker when they differ in any position and the no-fault marker
when they all match, aborting in neither case. -/
theorem c6_final_flag_gadget (seg : Segment) (A : BCAssigner) :
    (seg.final_segment = false → seg.script A =
      (phase1 A seg.result_list ++ (phase2 A seg.parameter_list ++
        (phase3 seg.parameter_list ++ phase4 seg))) ++
        [Instr.notEqual (BLAKE3_HASH_LENGTH * seg.result_list.length)]) ∧
    (seg.final_segment = true → seg.script A =
      phase1 A seg.result_list ++ (phase2 A seg.parameter_list ++
        (phase3 seg.parameter_list ++ phase4 seg))) ∧
    (∀ X F m a, X.length = BLAKE3_HASH_LENGTH * seg.result_list.length →
      F.length = BLAKE3_HASH_LENGTH * seg.result_list.length →
      run [Instr.notEqual (BLAKE3_HASH_LENGTH * seg.result_list.length)]
          ⟨X ++ (F ++ m), a⟩ =
        some ⟨(if X = F then noFault else fault) :: m, a⟩) := by
  refine ⟨?_, ?_, ?_⟩
  · intro h
    simp [Segment.script, h, List.append_assoc]
  · intro h
    simp [Segment.script, h, List.append_assoc]
  · intro X F m a h1 h2
    rw [← h2]
    exact run_notEqual X F m a (h1.trans h2.symm)

/-- Witness for C6 at a concrete input. -/
theorem c6_final_flag_gadget_witness :
    segSimple.script dummyAssigner =
      (phase1 dummyAssigner segSimple.result_list ++
        (phase2 dummyAssigner segSimple.parameter_list ++
          (phase3 segSimple.parameter_list ++ phase4 segSimple))) ++
        [Instr.notEqual (BLAKE3_HASH_LENGTH * segSimple.result_list.length)] ∧
    run [Instr.notEqual (BLAKE3_HASH_LENGTH * segSimple.result_list.length)]
        ⟨List.replicate 20 ([0] : Item) ++ (List.replicate 20 ([1] : Item) ++ []), []⟩ =
      some ⟨(if List.replicate 20 ([0] : Item) = List.replicate 20 ([1] : Item) then noFault
        else fault) :: [], []⟩ :=
  ⟨(c6_final_flag_gadget segSimple dummyAssigner).1 rfl,
    (c6_final_flag_gadget segSimple dummyAssigner).2.2 (List.replicate 20 [0])
      (List.replicate 20 [1]) [] [] (by decide) (by decide)⟩

/-- C1 (amended): the pairing invariant holds for NON-terminal segments: for
any non-terminal Segment whose witness builds successfully, compiled and
executed against a commitment capability whose verification fragments open
to the raw parameter values (or their hashes) and to the committed result
hashes, and whose inner program turns the raw parameter blocks plus hint
items into the result blocks, execution terminates without aborting and
leaves exactly one value on the stack — the single fault/no-fault marker.
(Terminal segments refute the unrestricted claim: see the counterexample.) -/
theorem c1_pairing_nonterminal (seg : Segment) (A : BCAssigner)
    (W Rb C : Element → List Item)
    (hW : ∀ p ∈ seg.parameter_list, p.to_witness = some (W p))
    (hWlen : ∀ p ∈ seg.parameter_list, (W p).length = p.witness_size)
    (hlockP : ∀ p ∈ seg.parameter_list,
      LockRuns A p (if PROOF_NAMES.contains p.id then (W p).reverse
        else blake3 ((W p).reverse)))
    (hlockR : ∀ r ∈ seg.result_list, LockRuns A r (C r))
    (hClen : ∀ r ∈ seg.result_list, (C r).length = BLAKE3_HASH_LENGTH)
    (hRlen : ∀ r ∈ seg.result_list, (Rb r).length = r.witness_size)
    (hinner : ∀ a, run seg.inner_program
        ⟨(seg.parameter_list.reverse.flatMap fun p => (W p).reverse) ++
          seg.hinted_to_witness.reverse, a⟩ =
        some ⟨seg.result_list.reverse.flatMap Rb, a⟩)
    (hfin : seg.final_segment = false)
    (w : List Item) (hw : seg.witness A = some w) :
    run (seg.script A) (initState w) =
      some ⟨[(if (seg.result_list.reverse.flatMap fun r => C r) =
          (seg.result_list.reverse.flatMap fun r => blake3 (Rb r))
        then noFault else fault)], []⟩ := by
  have h14 := run_phases14 seg A W Rb C hW hWlen hlockP hlockR hClen hRlen hinner w hw
  have hscript : seg.script A = (phase1 A seg.result_list ++ (phase2 A seg.parameter_list ++
      (phase3 seg.parameter_list ++ phase4 seg))) ++
      [Instr.notEqual (BLAKE3_HASH_LENGTH * seg.result_list.length)] := by
    simp [Segment.script, hfin, List.append_assoc]
  rw [hscript, run_append_some _ _ _ _ h14]
  have hlenF : (seg.result_list.reverse.flatMap fun r => blake3 (Rb r)).length =
      BLAKE3_HASH_LENGTH * seg.result_list.length := by
    rw [length_flatMap_const _ _ BLAKE3_HASH_LENGTH (fun x _ => blake3_length _)]
    simp
  have hlenC : (seg.result_list.reverse.flatMap fun r => C r).length =
      BLAKE3_HASH_LENGTH * seg.result_list.length := by
    rw [length_flatMap_const _ _ BLAKE3_HASH_LENGTH
      (fun x hx => hClen x (by simpa using hx))]
    simp
  rw [← hlenF]
  rw [show (seg.result_list.reverse.flatMap fun r => C r) ++
      (seg.result_list.reverse.flatMap fun r => blake3 (Rb r)) =
      (seg.result_list.reverse.flatMap fun r => C r) ++
      ((seg.result_list.reverse.flatMap fun r => blake3 (Rb r)) ++ []) by simp]
  exact run_notEqual _ _ [] [] (hlenC.trans hlenF.symm)

/-- Counterexample to C1 as stated (for every Segment): the terminal segment
with empty inner program and no parameters or results has a witness, runs
without aborting, and leaves zero values on the stack, not exactly one. -/
theorem c1_counterexample_terminal :
    ((Segment.new []).mark_final).witness dummyAssigner = some [] ∧
    run (((Segment.new []).mark_final).script dummyAssigner) (initState []) =
      some ⟨[], []⟩ ∧
    (MachState.mk [] []).main.length ≠ 1 := by
  refine ⟨rfl, by decide, by decide⟩

/-- Witness for the amended C1 at a concrete input: `segSimple` with the
honest capability runs to the single no-fault marker. -/
theorem c1_pairing_nonterminal_witness :
    run (segSimple.script dummyAssigner) (initState wSimple) = some ⟨[noFault], []⟩ := by
  have h := c1_pairing_nonterminal segSimple dummyAssigner
    (fun e => e.to_witness.getD []) (fun e => (e.to_witness.getD []).reverse)
    (fun e => blake3 ((e.to_witness.getD []).reverse))
    (by decide) (by decide)
    (by
      intro p hp
      have hp2 : p = elemA0 := List.eq_of_mem_singleton hp
      subst hp2
      intro m a
      rfl)
    (by
      intro r hr
      have hr2 : r = elemA0 := List.eq_of_mem_singleton hr
      subst hr2
      intro m a
      rfl)
    (by decide) (by decide)
    (by intro a; rfl)
    rfl wSimple rfl
  simpa using h

/-- C9: for a terminal Segment, honest execution of the compiled bytecode
with its witness ends with the committed result hashes and the freshly
recomputed result hashes — `2 * BLAKE3_HASH_LENGTH * |results|` items — on
the main stack, not a single marker value: the restore step still moves both
hash sets back and no comparison gadget follows. -/
theorem c9_terminal_stack (seg : Segment) (A : BCAssigner)
    (W Rb C : Element → List Item)
    (hW : ∀ p ∈ seg.parameter_list, p.to_witness = some (W p))
    (hWlen : ∀ p ∈ seg.parameter_list, (W p).length = p.witness_size)
    (hlockP : ∀ p ∈ seg.parameter_list,
      LockRuns A p (if PROOF_NAMES.contains p.id then (W p).reverse
        else blake3 ((W p).reverse)))
    (hlockR : ∀ r ∈ seg.result_list, LockRuns A r (C r))
    (hClen : ∀ r ∈ seg.result_list, (C r).length = BLAKE3_HASH_LENGTH)
    (hRlen : ∀ r ∈ seg.result_list, (Rb r).length = r.witness_size)
    (hinner : ∀ a, run seg.inner_program
        ⟨(seg.parameter_list.reverse.flatMap fun p => (W p).reverse) ++
          seg.hinted_to_witness.reverse, a⟩ =
        some ⟨seg.result_list.reverse.flatMap Rb, a⟩)
    (hfin : seg.final_segment = true)
    (w : List Item) (hw : seg.witness A = some w) :
    run (seg.script A) (initState w) =
      some ⟨(seg.result_list.reverse.flatMap fun r => C r) ++
        (seg.result_list.reverse.flatMap fun r => blake3 (Rb r)), []⟩ ∧
    ((seg.result_list.reverse.flatMap fun r => C r) ++
      (seg.result_list.reverse.flatMap fun r => blake3 (Rb r))).length =
      2 * BLAKE3_HASH_LENGTH * seg.result_list.length := by
  constructor
  · have h14 := run_phases14 seg A W Rb C hW hWlen hlockP hlockR hClen hRlen hinner w hw
    have hscript : seg.script A = phase1 A seg.result_list ++ (phase2 A seg.parameter_list ++
        (phase3 seg.parameter_list ++ phase4 seg)) := by
      simp [Segment.script, hfin, List.append_assoc]
    rw [hscript]
    exact h14
  · rw [List.length_append,
      length_flatMap_const _ _ BLAKE3_HASH_LENGTH
        (fun x hx => hClen x (by simpa using hx)),
      length_flatMap_const _ _ BLAKE3_HASH_LENGTH (fun x _ => blake3_length _)]
    simp
    ring

/-- The terminal variant of `segSimple`. -/
def segSimpleFinal : Segment := segSimple.mark_final

/-- Witness for C9 at a concrete input. -/
theorem c9_terminal_stack_witness :
    run (segSimpleFinal.script dummyAssigner) (initState wSimple) =
      some ⟨(segSimpleFinal.result_list.reverse.flatMap fun r =>
          blake3 ((r.to_witness.getD []).reverse)) ++
        (segSimpleFinal.result_list.reverse.flatMap fun r =>
          blake3 ((r.to_witness.getD []).reverse)), []⟩ ∧
    ((segSimpleFinal.result_list.reverse.flatMap fun r =>
        blake3 ((r.to_witness.getD []).reverse)) ++
      (segSimpleFinal.result_list.reverse.flatMap fun r =>
        blake3 ((r.to_witness.getD []).reverse))).length =
      2 * BLAKE3_HASH_LENGTH * segSimpleFinal.result_list.length :=
  c9_terminal_stack segSimpleFinal dummyAssigner
    (fun e => e.to_witness.getD []) (fun e => (e.to_witness.getD []).reverse)
    (fun e => blake3 ((e.to_witness.getD []).reverse))
    (by decide) (by decide)
    (by
      intro p hp
      have hp2 : p = elemA0 := List.eq_of_mem_singleton hp
      subst hp2
      intro m a
      rfl)
    (by
      intro r hr
      have hr2 : r = elemA0 := List.eq_of_mem_singleton hr
      subst hr2
      intro m a
      rfl)
    (by decide) (by decide)
    (by intro a; rfl)
    rfl wSimple rfl

/-! ### Alt-stack balance counting -/

/-- Occurrence count of an instruction across a concatenation of emitted
fragments. -/
theorem count_flatMap (l : List Element) (f : Element → Script) (i : Instr) :
    (l.flatMap f).count i = (l.map fun x => (f x).count i).sum := by
  induction l with
  | nil => simp
  | cons x xs ih => simp [ih]

theorem sum_map_const (l : List Element) (n : Nat) :
    (l.map fun _ => n).sum = n * l.length := by
  induction l with
  | nil => simp
  | cons x xs ih =>
    simp [ih, Nat.mul_succ]
    ring

/-- The number of items phase 2 moves to the auxiliary stack: the full raw
witness length for direct-reveal names, the fixed hash length otherwise,
summed over the parameters (and the same number phase 3 moves back). -/
def movedSum (l : List Element) : Nat :=
  (l.map fun p =>
    if PROOF_NAMES.contains p.id then p.witness_size else BLAKE3_HASH_LENGTH).sum

theorem movedSum_reverse (l : List Element) : movedSum l.reverse = movedSum l := by
  simp [movedSum, List.map_reverse, List.sum_reverse]

theorem phase3go_count_toAlt (b : Nat) (l : List Element) :
    (phase3go b l).count Instr.toAlt = 0 := by
  induction l generalizing b with
  | nil => simp [phase3go]
  | cons p rest ih =>
    simp only [phase3go, List.count_append, ih]
    by_cases hc : PROOF_NAMES.contains p.id = true
    · simp only [phase3one, if_pos hc]
      simp [pickN, fromAltN, List.count_append, List.count_replicate,
        List.count_singleton]
    · simp only [phase3one, if_neg hc]
      simp [pickN, fromAltN, List.count_append, List.count_replicate,
        List.count_singleton]

theorem phase3go_count_fromAlt (b : Nat) (l : List Element) :
    (phase3go b l).count Instr.fromAlt = movedSum l := by
  induction l generalizing b with
  | nil => simp [phase3go, movedSum]
  | cons p rest ih =>
    simp only [phase3go, List.count_append, ih]
    by_cases hc : PROOF_NAMES.contains p.id = true
    · simp only [phase3one, if_pos hc]
      simp only [movedSum, List.map_cons, List.sum_cons, if_pos hc]
      simp [pickN, fromAltN, List.count_append, List.count_replicate,
        List.count_singleton, movedSum]
    · simp only [phase3one, if_neg hc]
      simp only [movedSum, List.map_cons, List.sum_cons, if_neg hc]
      simp [pickN, fromAltN, List.count_append, List.count_replicate,
        List.count_singleton, movedSum]

/-- C10: across the whole compiled bytecode (the aggregate gadget at the end
moves nothing), with opaque fragments — the commitment verification
fragments and the inner program — touching the auxiliary stack zero times,
the number of items moved to the auxiliary stack is
`BLAKE3_HASH_LENGTH * |results|` (phase 1) plus the per-parameter full-raw
or hash lengths (phase 2) plus `BLAKE3_HASH_LENGTH * |results|` (phase 4),
the number moved back is the per-parameter lengths (phase 3) plus
`2 * BLAKE3_HASH_LENGTH * |results|` (phase 4), and the two totals are
equal, so the auxiliary stack ends balanced. -/
theorem c10_alt_balance (seg : Segment) (A : BCAssigner)
    (hlockT : ∀ e, (A.locking_script e).count Instr.toAlt = 0)
    (hlockF : ∀ e, (A.locking_script e).count Instr.fromAlt = 0)
    (hinT : seg.inner_program.count Instr.toAlt = 0)
    (hinF : seg.inner_program.count Instr.fromAlt = 0) :
    (seg.script A).count Instr.toAlt =
      BLAKE3_HASH_LENGTH * seg.result_list.length + movedSum seg.parameter_list +
        BLAKE3_HASH_LENGTH * seg.result_list.length ∧
    (seg.script A).count Instr.fromAlt =
      movedSum seg.parameter_list + 2 * BLAKE3_HASH_LENGTH * seg.result_list.length ∧
    (seg.script A).count Instr.toAlt = (seg.script A).count Instr.fromAlt := by
  have h1T : (phase1 A seg.result_list).count Instr.toAlt =
      BLAKE3_HASH_LENGTH * seg.result_list.length := by
    rw [phase1, count_flatMap]
    have hmap : (seg.result_list.reverse.map fun r =>
        (A.locking_script r ++ toAltN BLAKE3_HASH_LENGTH).count Instr.toAlt) =
        seg.result_list.reverse.map fun _ => BLAKE3_HASH_LENGTH := by
      apply List.map_congr_left
      intro r _
      simp [List.count_append, hlockT r, toAltN, List.count_replicate]
    rw [hmap, sum_map_const]
    simp
  have h1F : (phase1 A seg.result_list).count Instr.fromAlt = 0 := by
    rw [phase1, count_flatMap]
    have hmap : (seg.result_list.reverse.map fun r =>
        (A.locking_script r ++ toAltN BLAKE3_HASH_LENGTH).count Instr.fromAlt) =
        seg.result_list.reverse.map fun _ => 0 := by
      apply List.map_congr_left
      intro r _
      simp [List.count_append, hlockF r, toAltN, List.count_replicate]
    rw [hmap, sum_map_const]
    simp
  have h2T : (phase2 A seg.parameter_list).count Instr.toAlt =
      movedSum seg.parameter_list := by
    rw [phase2, count_flatMap, movedSum]
    congr 1
    apply List.map_congr_left
    intro p _
    by_cases hc : PROOF_NAMES.contains p.id = true
    · simp only [phase2one, if_pos hc]
      simp [List.count_append, hlockT p, toAltN, List.count_replicate]
    · simp only [phase2one, if_neg hc]
      simp [List.count_append, hlockT p, toAltN, List.count_replicate]
  have h2F : (phase2 A seg.parameter_list).count Instr.fromAlt = 0 := by
    rw [phase2, count_flatMap]
    have hmap : (seg.parameter_list.map fun p => (phase2one A p).count Instr.fromAlt) =
        seg.parameter_list.map fun _ => 0 := by
      apply List.map_congr_left
      intro p _
      by_cases hc : PROOF_NAMES.contains p.id = true
      · simp only [phase2one, if_pos hc]
        simp [List.count_append, hlockF p, toAltN, List.count_replicate]
      · simp only [phase2one, if_neg hc]
        simp [List.count_append, hlockF p, toAltN, List.count_replicate]
    rw [hmap, sum_map_const]
    simp
  have h3T : (phase3 seg.parameter_list).count Instr.toAlt = 0 :=
    phase3go_count_toAlt 0 seg.parameter_list.reverse
  have h3F : (phase3 seg.parameter_list).count Instr.fromAlt =
      movedSum seg.parameter_list := by
    rw [phase3, phase3go_count_fromAlt, movedSum_reverse]
  have h4T : (phase4 seg).count Instr.toAlt =
      BLAKE3_HASH_LENGTH * seg.result_list.length := by
    have hmap : (seg.result_list.reverse.map fun r =>
        ([Instr.blake3Var r.witness_size] ++ toAltN BLAKE3_HASH_LENGTH).count Instr.toAlt) =
        seg.result_list.reverse.map fun _ => BLAKE3_HASH_LENGTH := by
      apply List.map_congr_left
      intro r _
      simp [List.count_append, toAltN, List.count_replicate]
    rw [phase4, List.count_append, List.count_append, count_flatMap, hmap,
      sum_map_const, hinT]
    simp [fromAltN, List.count_replicate]
  have h4F : (phase4 seg).count Instr.fromAlt =
      2 * BLAKE3_HASH_LENGTH * seg.result_list.length := by
    have hmap : (seg.result_list.reverse.map fun r =>
        ([Instr.blake3Var r.witness_size] ++ toAltN BLAKE3_HASH_LENGTH).count Instr.fromAlt) =
        seg.result_list.reverse.map fun _ => 0 := by
      apply List.map_congr_left
      intro r _
      simp [List.count_append, toAltN, List.count_replicate]
    rw [phase4, List.count_append, List.count_append, count_flatMap, hmap,
      sum_map_const, hinF]
    simp [fromAltN, List.count_replicate]
    ring
  have h5T : (if seg.final_segment then ([] : Script)
      else [Instr.notEqual (BLAKE3_HASH_LENGTH * seg.result_list.length)]).count
        Instr.toAlt = 0 := by
    by_cases hf : seg.final_segment = true <;> simp [hf, List.count_singleton]
  have h5F : (if seg.final_segment then ([] : Script)
      else [Instr.notEqual (BLAKE3_HASH_LENGTH * seg.result_list.length)]).count
        Instr.fromAlt = 0 := by
    by_cases hf : seg.final_segment = true <;> simp [hf, List.count_singleton]
  have hT : (seg.script A).count Instr.toAlt =
      BLAKE3_HASH_LENGTH * seg.result_list.length + movedSum seg.parameter_list +
        BLAKE3_HASH_LENGTH * seg.result_list.length := by
    simp only [Segment.script, List.count_append, h1T, h2T, h3T, h4T, h5T]
    ring
  have hF : (seg.script A).count Instr.fromAlt =
      movedSum seg.parameter_list + 2 * BLAKE3_HASH_LENGTH * seg.result_list.length := by
    simp only [Segment.script, List.count_append, h1F, h2F, h3F, h4F, h5F]
    ring
  refine ⟨hT, hF, ?_⟩
  rw [hT, hF]
  ring

/-- Witness for C10 at a concrete input. -/
theorem c10_alt_balance_witness :
    (segSimple.script dummyAssigner).count Instr.toAlt =
      BLAKE3_HASH_LENGTH * segSimple.result_list.length + movedSum segSimple.parameter_list +
        BLAKE3_HASH_LENGTH * segSimple.result_list.length ∧
    (segSimple.script dummyAssigner).count Instr.fromAlt =
      movedSum segSimple.parameter_list +
        2 * BLAKE3_HASH_LENGTH * segSimple.result_list.length ∧
    (segSimple.script dummyAssigner).count Instr.toAlt =
      (segSimple.script dummyAssigner).count Instr.fromAlt :=
  c10_alt_balance segSimple dummyAssigner (fun _ => rfl) (fun _ => rfl) rfl rfl

set_option maxRecDepth 100000 in
/-- C2: the end-to-end example of `test_segment_by_simple_case`: the Segment
with empty inner program, the populated value `a0` as single parameter and
identical single result, compiled and witnessed against the consistent
capability, executes to the single no-fault marker; flipping one byte of
the committed result's commitment-opening witness flips the outcome to the
single fault marker. -/
theorem c2_end_to_end :
    segSimple.witness dummyAssigner = some wSimple ∧
    run (segSimple.script dummyAssigner) (initState wSimple) = some ⟨[noFault], []⟩ ∧
    run (segSimple.script dummyAssigner) (initState wFlipped) = some ⟨[fault], []⟩ := by
  refine ⟨rfl, ?_, ?_⟩ <;> decide
